import Mathlib

/-!
# zkrp: the bn256 curve constants

A shallow embedding of `crypto/bn256/constants.go`: the BN parameter `u`, the
base-field prime `P`, the group order `Order` and the Frobenius constants (fixed
powers of `ξ = i + 9`), together with the arithmetic of `Fp2 = Fp[i]/(i² + 1)`
in which those constants are read.

`big.Int` values are embedded as Lean integers. The three moduli are parsed from
unsigned decimal literals, so they are natural numbers.
-/

namespace bn256

/-! ## Definitions -/

/-- BN parameter that determines the prime (`var u` in `constants.go`). -/
def u : Nat := 4965661367192848881

/-- Prime over which the basic field is formed (`var P` in `constants.go`). -/
def P : Nat :=
  21888242871839275222246405745257275088696311157297823662689037894645226208583

/-- Number of elements in both G₁ and G₂ (`var Order` in `constants.go`). -/
def Order : Nat :=
  21888242871839275222246405745257275088548364400416034343698204186575808495617

/-- Modelled from the spec: the declaration of the type `gfP2` is not part of the
available sources, only its two-field literals `gfP2{x, y}` in `constants.go` are.
The fields keep their positional order: `x` is the first literal, `y` the second.
A value stands for the element `x·i + y` of `Fp2 = Fp[i]/(i² + 1)`. -/
structure gfP2 where
  x : Int
  y : Int
deriving DecidableEq, Repr

/-- Multiplicative identity of `Fp2`: `0·i + 1`. -/
def gfP2.one : gfP2 := ⟨0, 1⟩

/-- Modelled from the spec: multiplication in `Fp2` (the source of `gfP2` arithmetic
is not available). With `i² = -1`,
`(a.x·i + a.y)(b.x·i + b.y) = (a.x·b.y + b.x·a.y)·i + (a.y·b.y - a.x·b.x)`,
each coefficient reduced to `[0, P)`. -/
def gfP2.mul (a b : gfP2) : gfP2 :=
  ⟨(a.x * b.y + b.x * a.y) % (P : Int), (a.y * b.y - a.x * b.x) % (P : Int)⟩

/-- Power in `Fp2` by its defining recursion: `a⁰ = 1`, `aⁿ⁺¹ = aⁿ · a`. -/
def gfP2.pow (a : gfP2) : Nat → gfP2
  | 0 => gfP2.one
  | n + 1 => (gfP2.pow a n).mul a

/-- Square-and-multiply with an accumulator, used to evaluate `gfP2.pow` at
exponents of several hundred bits. The first argument bounds the number of steps. -/
def gfP2.expAux : Nat → gfP2 → Nat → gfP2 → gfP2
  | 0, _, _, acc => acc
  | fuel + 1, b, e, acc =>
    if e = 0 then acc
    else gfP2.expAux fuel (b.mul b) (e / 2) (if e % 2 = 1 then acc.mul b else acc)

/-- Fast evaluation of `a ^ e` in `Fp2`. -/
def gfP2.exp (a : gfP2) (e : Nat) : gfP2 := gfP2.expAux e a e gfP2.one

/-- A coefficient pair is reduced when both coefficients lie in `[0, P)`. -/
def gfP2.Reduced (a : gfP2) : Prop := a.x % (P : Int) = a.x ∧ a.y % (P : Int) = a.y

instance (a : gfP2) : Decidable a.Reduced := by
  unfold gfP2.Reduced
  infer_instance

/-- The non-residue `ξ = i + 9`. -/
def xi : gfP2 := ⟨1, 9⟩

/-- Constant `xiToPMinus1Over6` of `constants.go`: `ξ^((p-1)/6)`. -/
def xiToPMinus1Over6 : gfP2 :=
  ⟨16469823323077808223889137241176536799009286646108169935659301613961712198316,
   8376118865763821496583973867626364092589906065868298776909617916018768340080⟩

/-- Constant `xiToPMinus1Over3` of `constants.go`: `ξ^((p-1)/3)`. -/
def xiToPMinus1Over3 : gfP2 :=
  ⟨10307601595873709700152284273816112264069230130616436755625194854815875713954,
   21575463638280843010398324269430826099269044274347216827212613867836435027261⟩

/-- Constant `xiToPMinus1Over2` of `constants.go`: `ξ^((p-1)/2)`. -/
def xiToPMinus1Over2 : gfP2 :=
  ⟨3505843767911556378687030309984248845540243509899259641013678093033130930403,
   2821565182194536844548159561693502659359617185244120367078079554186484126554⟩

/-- Constant `xiToPSquaredMinus1Over3` of `constants.go`: `ξ^((p²-1)/3)`. -/
def xiToPSquaredMinus1Over3 : Int :=
  21888242871839275220042445260109153167277707414472061641714758635765020556616

/-- Constant `xiTo2PSquaredMinus2Over3` of `constants.go`: `ξ^((2p²-2)/3)`. -/
def xiTo2PSquaredMinus2Over3 : Int :=
  2203960485148121921418603742825762020974279258880205651966

/-- Constant `xiToPSquaredMinus1Over6` of `constants.go`: `ξ^((p²-1)/6)`. -/
def xiToPSquaredMinus1Over6 : Int :=
  21888242871839275220042445260109153167277707414472061641714758635765020556617

/-- Constant `xiTo2PMinus2Over3` of `constants.go`: `ξ^((2p-2)/3)`. -/
def xiTo2PMinus2Over3 : gfP2 :=
  ⟨19937756971775647987995932169929341994314640652964949448313374472400716661030,
   2581911344467009335267311115468803099551665605076196740867805258568234346338⟩

/-- Square-and-multiply modular exponentiation on naturals with an accumulator;
the first argument bounds the number of steps. -/
def powModAux : Nat → Nat → Nat → Nat → Nat → Nat
  | 0, _, _, _, acc => acc
  | fuel + 1, b, e, m, acc =>
    if e = 0 then acc
    else powModAux fuel (b * b % m) (e / 2) m (if e % 2 = 1 then acc * b % m else acc)

/-- Fast evaluation of `b ^ e % m`. -/
def powMod (b e m : Nat) : Nat := powModAux e b e m (1 % m)

/-- Lucas certificate check for `p`: `a` has order exactly `p - 1` modulo `p`, where
`fs` lists the prime factors of `p - 1` with multiplicity. -/
def lucasCheck (p a : Nat) (fs : List Nat) : Bool :=
  decide (fs.prod = p - 1) && decide (powMod a (p - 1) p = 1) &&
    fs.all fun q => decide (powMod a ((p - 1) / q) p ≠ 1)

/-- Element `re + im·i` of `Fp2`, given by its constant coefficient `re` and its
coefficient `im` of `i`. -/
def gfP2.ofCoeffs (re im : Int) : gfP2 := ⟨im, re⟩

/-- Norm of `x·i + y` down to the base field: `x² + y²` reduced to `[0, P)`. -/
def gfP2.norm (a : gfP2) : Int := (a.x * a.x + a.y * a.y) % (P : Int)

/-- The polynomial `36v⁴ + 36v³ + 24v² + 6v + 1` that gives the prime of a BN curve
from its parameter (comment on `var P` in `constants.go`). -/
def bnPrimeOf (v : Nat) : Nat := 36 * v ^ 4 + 36 * v ^ 3 + 24 * v ^ 2 + 6 * v + 1

end bn256

/-!
# zkrp: the secp256k1 curve adapter

A shallow embedding of `crypto/p256/mycurve.go`. A Go panic is an explicit error
result. The embedded `*elliptic.CurveParams` and the `*btcec.KoblitzCurve` are
pointers that may be nil, so they are optional values.
-/

namespace p256

/-- Run-time panics that the code of `mycurve.go` can raise. -/
inductive Fault where
  /-- Explicit `panic` of the adapter methods: `underlyingCurve` is nil. -/
  | nilUnderlyingCurve
  /-- Promoted field `P` read through a nil `*elliptic.CurveParams`. -/
  | nilCurveParams
  /-- Call of `big.Int.Mod` with a zero modulus. -/
  | divisionByZero
  /-- Use of the nil result that `ModInverse` gives when there is no inverse. -/
  | nilInverse
deriving DecidableEq, Repr

/-- Fields of `elliptic.CurveParams` (standard library) that hold the curve
parameters; `P` is the order of the underlying field. -/
structure CurveParams where
  P : Int
  N : Int
  B : Int
  Gx : Int
  Gy : Int
  BitSize : Int

/-- The `btcec.KoblitzCurve` to which the adapter delegates. The library is outside
this repository: its four operations are taken as given functions of their
arguments. -/
structure KoblitzCurve where
  Add : Int → Int → Int → Int → Int × Int
  Double : Int → Int → Int × Int
  ScalarMult : Int → Int → List (Fin 256) → Int × Int
  ScalarBaseMult : List (Fin 256) → Int × Int

/-- The adapter `MyBitCurve`: embedded curve parameters and the curve that the
operations are delegated to. -/
structure MyBitCurve where
  CurveParams : Option CurveParams
  underlyingCurve : Option KoblitzCurve

instance instDecidableEqExcept {ε α : Type} [DecidableEq ε] [DecidableEq α] :
    DecidableEq (Except ε α)
  | .ok a, .ok b =>
    if h : a = b then isTrue (congrArg Except.ok h)
    else isFalse fun h2 => h (Except.ok.inj h2)
  | .error a, .error b =>
    if h : a = b then isTrue (congrArg Except.error h)
    else isFalse fun h2 => h (Except.error.inj h2)
  | .ok _, .error _ => isFalse fun h => Except.noConfusion h
  | .error _, .ok _ => isFalse fun h => Except.noConfusion h

/-- Left shift `big.Int.Lsh(x, n)`: `x · 2ⁿ`. -/
def lsh (x : Int) (n : Nat) : Int := x * 2 ^ n

/-- Result of `big.Int.ModInverse(g, n)` of the standard library, after its
documentation: the multiplicative inverse of `g` in `ℤ/nℤ`, in the range `[0, |n|)`,
when `g` and `n` are relatively prime, and no value (nil) otherwise. -/
def modInverse (g n : Int) : Option Int :=
  if Int.gcd g n = 1 then some (Int.gcdA g n % n) else none

/-- Method `Add` of `mycurve.go`: panics on a nil `underlyingCurve`, otherwise
delegates. -/
def MyBitCurve.Add (BitCurve : MyBitCurve) (x1 y1 x2 y2 : Int) : Except Fault (Int × Int) :=
  match BitCurve.underlyingCurve with
  | none => .error .nilUnderlyingCurve
  | some curve => .ok (curve.Add x1 y1 x2 y2)

/-- Method `Double` of `mycurve.go`. -/
def MyBitCurve.Double (BitCurve : MyBitCurve) (x1 y1 : Int) : Except Fault (Int × Int) :=
  match BitCurve.underlyingCurve with
  | none => .error .nilUnderlyingCurve
  | some curve => .ok (curve.Double x1 y1)

/-- Method `ScalarMult` of `mycurve.go`. -/
def MyBitCurve.ScalarMult (BitCurve : MyBitCurve) (Bx By : Int) (k : List (Fin 256)) :
    Except Fault (Int × Int) :=
  match BitCurve.underlyingCurve with
  | none => .error .nilUnderlyingCurve
  | some curve => .ok (curve.ScalarMult Bx By k)

/-- Method `ScalarBaseMult` of `mycurve.go`. -/
def MyBitCurve.ScalarBaseMult (BitCurve : MyBitCurve) (k : List (Fin 256)) :
    Except Fault (Int × Int) :=
  match BitCurve.underlyingCurve with
  | none => .error .nilUnderlyingCurve
  | some curve => .ok (curve.ScalarBaseMult k)

/-- Method `addJacobian` of `mycurve.go`, statement by statement. `Mod` is the
Euclidean modulus, `Sign() == -1` is `< 0`; a variable that the Go code overwrites
gets a new name at each assignment. -/
def MyBitCurve.addJacobian (BitCurve : MyBitCurve) (x1 y1 z1 x2 y2 z2 : Int) :
    Except Fault (Int × Int × Int) :=
  match BitCurve.CurveParams with
  | none => .error .nilCurveParams
  | some params =>
    let P := params.P
    if P = 0 then .error .divisionByZero
    else
      let z1z1 := (z1 * z1) % P
      let z2z2 := (z2 * z2) % P
      let u1 := (x1 * z2z2) % P
      let u2 := (x2 * z1z1) % P
      let h0 := u2 - u1
      let h := if h0 < 0 then h0 + P else h0
      let i0 := lsh h 1
      let i := i0 * i0
      let j := h * i
      let s1 := (y1 * z2 * z2z2) % P
      let s2 := (y2 * z1 * z1z1) % P
      let r0 := s2 - s1
      let r1 := if r0 < 0 then r0 + P else r0
      let r := lsh r1 1
      let v := u1 * i
      let x3 := (r * r - j - v - v) % P
      let v1 := v - x3
      let y3a := r * v1
      let s1a := lsh (s1 * j) 1
      let y3 := (y3a - s1a) % P
      let z3a := (z1 + z2) * (z1 + z2) - z1z1
      let z3b := if z3a < 0 then z3a + P else z3a
      let z3c := z3b - z2z2
      let z3d := if z3c < 0 then z3c + P else z3c
      let z3 := (z3d * h) % P
      .ok (x3, y3, z3)

/-- Method `affineFromJacobian` of `mycurve.go`. For `z = 0` it returns `(0, 0)` before
reading `P`. A nil result of `ModInverse` makes the following `Mul` panic. -/
def MyBitCurve.affineFromJacobian (BitCurve : MyBitCurve) (x y z : Int) :
    Except Fault (Int × Int) :=
  if z = 0 then .ok (0, 0)
  else
    match BitCurve.CurveParams with
    | none => .error .nilCurveParams
    | some params =>
      let P := params.P
      match modInverse z P with
      | none => .error .nilInverse
      | some zinv =>
        if P = 0 then .error .divisionByZero
        else
          let zinvsq := zinv * zinv
          let xOut := (x * zinvsq) % P
          let zinvcb := zinvsq * zinv
          let yOut := (y * zinvcb) % P
          .ok (xOut, yOut)

/-- Parameters of secp256k1, which `init` takes from `btcec.S256().CurveParams`:
the field prime `2²⁵⁶ - 2³² - 977`, the group order, `B = 7` and the base point. -/
def secp256k1Params : CurveParams where
  P := 115792089237316195423570985008687907853269984665640564039457584007908834671663
  N := 115792089237316195423570985008687907852837564279074904382605163141518161494337
  B := 7
  Gx := 55066263022277343669578718895168534326250603453777594175500187360389116729240
  Gy := 32670510020758816978083085130507043184471273380659243275938904335757337482424
  BitSize := 256

/-- The global `theCurve` after `init`: the secp256k1 parameters and the curve
instance `btcec.S256()` stored for delegation. -/
def theCurve (btcecCurveInstance : KoblitzCurve) : MyBitCurve where
  CurveParams := some secp256k1Params
  underlyingCurve := some btcecCurveInstance

/-- Function `S256` of `mycurve.go`: returns `theCurve`. -/
def S256 (btcecCurveInstance : KoblitzCurve) : MyBitCurve := theCurve btcecCurveInstance

/-- The curve `y² = x³ + 7` over the field with `23` elements, whose group has `24`
points and is generated by `(1, 10)`: a small prime modulus for concrete checks. -/
def smallParams : CurveParams where
  P := 23
  N := 24
  B := 7
  Gx := 1
  Gy := 10
  BitSize := 5

/-- An adapter over `smallParams` that has no curve to delegate to. -/
def smallCurve : MyBitCurve where
  CurveParams := some smallParams
  underlyingCurve := none

/-- Affine point `(x / z², y / z³)` over `Fp` of the Jacobian triple `(x, y, z)`. -/
def toAffine (p : Nat) (x y z : Int) : ZMod p × ZMod p :=
  ((x : ZMod p) * ((z : ZMod p) ^ 2)⁻¹, (y : ZMod p) * ((z : ZMod p) ^ 3)⁻¹)

/-- Chord rule for the sum of two affine points over `Fp` with different abscissae:
`λ = (Y2 - Y1)/(X2 - X1)`, `X3 = λ² - X1 - X2`, `Y3 = λ(X1 - X3) - Y1`. -/
def chordSum (p : Nat) (A B : ZMod p × ZMod p) : ZMod p × ZMod p :=
  let l := (B.2 - A.2) * (B.1 - A.1)⁻¹
  let X3 := l ^ 2 - A.1 - B.1
  (X3, l * (A.1 - X3) - A.2)

end p256

namespace bn256

/-! ## Modular exponentiation and Lucas certificates -/

theorem powModAux_eq (fuel : Nat) : ∀ b e m acc : Nat, e ≤ fuel →
    powModAux fuel b e m acc % m = acc * b ^ e % m := by
  induction fuel with
  | zero =>
    intro b e m acc he
    obtain rfl : e = 0 := Nat.le_zero.mp he
    simp [powModAux]
  | succ n ih =>
    intro b e m acc he
    unfold powModAux
    by_cases h0 : e = 0
    · simp [h0]
    · rw [if_neg h0, ih _ _ _ _ (by omega)]
      have hsplit : b ^ e = (b * b) ^ (e / 2) * b ^ (e % 2) := by
        rw [← pow_two, ← pow_mul, ← pow_add, Nat.div_add_mod]
      have hsq : (b * b % m) ^ (e / 2) % m = (b * b) ^ (e / 2) % m :=
        (Nat.pow_mod (b * b) (e / 2) m).symm
      by_cases h1 : e % 2 = 1
      · rw [if_pos h1, hsplit, h1, pow_one]
        calc acc * b % m * (b * b % m) ^ (e / 2) % m
            = (acc * b % m) * ((b * b % m) ^ (e / 2) % m) % m := by
              rw [Nat.mul_mod, Nat.mod_mod]
          _ = (acc * b % m) * ((b * b) ^ (e / 2) % m) % m := by rw [hsq]
          _ = acc * b * (b * b) ^ (e / 2) % m := by rw [← Nat.mul_mod]
          _ = acc * ((b * b) ^ (e / 2) * b) % m := by ring_nf
      · have h2 : e % 2 = 0 := by omega
        rw [if_neg h1, hsplit, h2, pow_zero, mul_one]
        calc acc * (b * b % m) ^ (e / 2) % m
            = (acc % m) * ((b * b % m) ^ (e / 2) % m) % m := by rw [Nat.mul_mod]
          _ = (acc % m) * ((b * b) ^ (e / 2) % m) % m := by rw [hsq]
          _ = acc * (b * b) ^ (e / 2) % m := by rw [← Nat.mul_mod]

theorem powModAux_lt (fuel : Nat) : ∀ b e m acc : Nat, 0 < m → acc < m →
    powModAux fuel b e m acc < m := by
  induction fuel with
  | zero => intro b e m acc _ h; simpa [powModAux] using h
  | succ n ih =>
    intro b e m acc hm h
    unfold powModAux
    split_ifs
    · exact h
    · exact ih _ _ _ _ hm (Nat.mod_lt _ hm)
    · exact ih _ _ _ _ hm h

theorem powMod_eq (b e m : Nat) : powMod b e m = b ^ e % m := by
  rcases Nat.eq_zero_or_pos m with rfl | hm
  · have h := powModAux_eq e b e 0 (1 % 0) le_rfl
    simpa [powMod] using h
  · have h := powModAux_eq e b e m (1 % m) le_rfl
    have hlt := powModAux_lt e b e m (1 % m) hm (Nat.mod_lt _ hm)
    rw [Nat.mod_eq_of_lt hlt] at h
    rw [powMod, h, Nat.mul_mod, Nat.mod_mod, ← Nat.mul_mod, one_mul]

theorem prime_of_lucasCheck (p a : Nat) (fs : List Nat) (hfs : ∀ q ∈ fs, Nat.Prime q)
    (h : lucasCheck p a fs = true) : Nat.Prime p := by
  simp only [lucasCheck, Bool.and_eq_true, decide_eq_true_eq, List.all_eq_true, powMod_eq,
    ne_eq] at h
  obtain ⟨⟨hprod, h1⟩, hq⟩ := h
  have hp1 : p ≠ 1 := by
    rintro rfl
    simp at h1
  have hone : (1 : Nat) % p = 1 := by
    rcases Nat.lt_or_ge 1 p with hlt | hge
    · exact Nat.mod_eq_of_lt hlt
    · interval_cases p
      · rfl
      · exact absurd rfl hp1
  have key : ∀ k : Nat, ((a : ZMod p) ^ k = 1 ↔ a ^ k % p = 1) := by
    intro k
    have := ZMod.natCast_eq_natCast_iff' (a ^ k) 1 p
    rw [hone] at this
    simpa using this
  refine lucas_primality p (a : ZMod p) ((key _).2 h1) ?_
  intro q hqp hqd
  rw [← hprod] at hqd
  obtain ⟨r, hr, hqr⟩ := (Prime.dvd_prod_iff hqp.prime).1 hqd
  have hqr2 : q = r := (Nat.prime_dvd_prime_iff_eq hqp (hfs r hr)).1 hqr
  subst hqr2
  intro hc
  exact hq q hr ((key _).1 hc)

/-! ## Arithmetic of `Fp2` -/

theorem gfP2.mul_comm (a b : gfP2) : a.mul b = b.mul a := by
  simp only [gfP2.mul, gfP2.mk.injEq]
  constructor
  · congr 1; ring
  · congr 1; ring

theorem gfP2.mul_assoc (a b c : gfP2) : (a.mul b).mul c = a.mul (b.mul c) := by
  simp only [gfP2.mul, gfP2.mk.injEq]
  constructor
  · rw [← ZMod.intCast_eq_intCast_iff']
    push_cast [ZMod.intCast_mod]
    ring
  · rw [← ZMod.intCast_eq_intCast_iff']
    push_cast [ZMod.intCast_mod]
    ring

theorem gfP2.mul_reduced (a b : gfP2) : (a.mul b).Reduced :=
  ⟨Int.emod_emod_of_dvd _ (dvd_refl _), Int.emod_emod_of_dvd _ (dvd_refl _)⟩

theorem gfP2.one_reduced : gfP2.one.Reduced := by
  constructor <;> decide!

theorem gfP2.mul_one_of_reduced (a : gfP2) (h : a.Reduced) : a.mul gfP2.one = a := by
  obtain ⟨hx, hy⟩ := h
  cases a with
  | mk x y =>
    simp only [gfP2.mul, gfP2.one, gfP2.mk.injEq, mul_one, mul_zero, zero_mul, add_zero,
      sub_zero]
    exact ⟨hx, hy⟩

theorem gfP2.pow_reduced (a : gfP2) (n : Nat) : (a.pow n).Reduced := by
  cases n with
  | zero => exact gfP2.one_reduced
  | succ k => exact gfP2.mul_reduced _ _

theorem gfP2.pow_sq (a : gfP2) (k : Nat) : (a.mul a).pow k = a.pow (2 * k) := by
  induction k with
  | zero => rfl
  | succ k ih =>
    have h : 2 * (k + 1) = 2 * k + 1 + 1 := by ring
    rw [h]
    simp only [gfP2.pow]
    rw [ih, gfP2.mul_assoc]

theorem gfP2.expAux_eq (fuel : Nat) : ∀ (b : gfP2) (e : Nat) (acc : gfP2), e ≤ fuel →
    acc.Reduced → gfP2.expAux fuel b e acc = acc.mul (b.pow e) := by
  induction fuel with
  | zero =>
    intro b e acc he hacc
    obtain rfl : e = 0 := Nat.le_zero.mp he
    simp only [gfP2.expAux, gfP2.pow]
    exact (gfP2.mul_one_of_reduced acc hacc).symm
  | succ n ih =>
    intro b e acc he hacc
    unfold gfP2.expAux
    by_cases h0 : e = 0
    · subst h0
      simp only [if_true, gfP2.pow]
      exact (gfP2.mul_one_of_reduced acc hacc).symm
    · rw [if_neg h0]
      by_cases h1 : e % 2 = 1
      · rw [if_pos h1, ih _ _ _ (by omega) (gfP2.mul_reduced _ _), gfP2.pow_sq]
        have he2 : e = 2 * (e / 2) + 1 := by omega
        conv_rhs => rw [he2]
        simp only [gfP2.pow]
        rw [gfP2.mul_assoc, gfP2.mul_comm b]
      · rw [if_neg h1, ih _ _ _ (by omega) hacc, gfP2.pow_sq]
        have he2 : 2 * (e / 2) = e := by omega
        rw [he2]

theorem gfP2.exp_eq (a : gfP2) (e : Nat) : a.exp e = a.pow e := by
  rw [gfP2.exp, gfP2.expAux_eq e a e gfP2.one le_rfl gfP2.one_reduced, gfP2.mul_comm]
  exact gfP2.mul_one_of_reduced _ (gfP2.pow_reduced a e)

/-! ## Primality certificate for `P`

Each lemma checks a Lucas certificate: a witness of order `p - 1` together with the
factorisation of `p - 1`, whose larger prime factors are certified in turn. -/

theorem prime_405928799 : Nat.Prime 405928799 := by
  refine prime_of_lucasCheck _ 22
    [2, 11, 3691, 4999] ?_ (by decide!)
  intro q hq
  simp only [List.mem_cons, List.mem_singleton, List.not_mem_nil, or_false] at hq
  rcases hq with rfl | rfl | rfl | rfl <;> first | norm_num

theorem prime_327599 : Nat.Prime 327599 := by
  refine prime_of_lucasCheck _ 19
    [2, 19, 37, 233] ?_ (by decide!)
  intro q hq
  simp only [List.mem_cons, List.mem_singleton, List.not_mem_nil, or_false] at hq
  rcases hq with rfl | rfl | rfl | rfl <;> first | norm_num

theorem prime_11465965001 : Nat.Prime 11465965001 := by
  refine prime_of_lucasCheck _ 3
    [2, 2, 2, 5, 5, 5, 5, 7, 327599] ?_ (by decide!)
  intro q hq
  simp only [List.mem_cons, List.mem_singleton, List.not_mem_nil, or_false] at hq
  rcases hq with rfl | rfl | rfl | rfl | rfl | rfl | rfl | rfl | rfl <;> first | exact prime_327599 | norm_num

theorem prime_1853641 : Nat.Prime 1853641 := by
  refine prime_of_lucasCheck _ 17
    [2, 2, 2, 3, 3, 5, 19, 271] ?_ (by decide!)
  intro q hq
  simp only [List.mem_cons, List.mem_singleton, List.not_mem_nil, or_false] at hq
  rcases hq with rfl | rfl | rfl | rfl | rfl | rfl | rfl | rfl <;> first | norm_num

theorem prime_4562087 : Nat.Prime 4562087 := by
  refine prime_of_lucasCheck _ 5
    [2, 17, 109, 1231] ?_ (by decide!)
  intro q hq
  simp only [List.mem_cons, List.mem_singleton, List.not_mem_nil, or_false] at hq
  rcases hq with rfl | rfl | rfl | rfl <;> first | norm_num

theorem prime_173171039 : Nat.Prime 173171039 := by
  refine prime_of_lucasCheck _ 13
    [2, 73, 89, 13327] ?_ (by decide!)
  intro q hq
  simp only [List.mem_cons, List.mem_singleton, List.not_mem_nil, or_false] at hq
  rcases hq with rfl | rfl | rfl | rfl <;> first | norm_num

theorem prime_1263766531 : Nat.Prime 1263766531 := by
  refine prime_of_lucasCheck _ 10
    [2, 3, 5, 13, 911, 3557] ?_ (by decide!)
  intro q hq
  simp only [List.mem_cons, List.mem_singleton, List.not_mem_nil, or_false] at hq
  rcases hq with rfl | rfl | rfl | rfl | rfl | rfl <;> first | norm_num

theorem prime_35385462869 : Nat.Prime 35385462869 := by
  refine prime_of_lucasCheck _ 2
    [2, 2, 7, 1263766531] ?_ (by decide!)
  intro q hq
  simp only [List.mem_cons, List.mem_singleton, List.not_mem_nil, or_false] at hq
  rcases hq with rfl | rfl | rfl | rfl <;> first | exact prime_1263766531 | norm_num

theorem prime_2480874801745591 : Nat.Prime 2480874801745591 := by
  refine prime_of_lucasCheck _ 6
    [2, 3, 3, 5, 19, 41, 35385462869] ?_ (by decide!)
  intro q hq
  simp only [List.mem_cons, List.mem_singleton, List.not_mem_nil, or_false] at hq
  rcases hq with rfl | rfl | rfl | rfl | rfl | rfl | rfl <;> first | exact prime_35385462869 | norm_num

theorem prime_13427688667394608761327070753331941386769 : Nat.Prime 13427688667394608761327070753331941386769 := by
  refine prime_of_lucasCheck _ 17
    [2, 2, 2, 2, 3, 7, 11, 1853641, 4562087, 173171039, 2480874801745591] ?_ (by decide!)
  intro q hq
  simp only [List.mem_cons, List.mem_singleton, List.not_mem_nil, or_false] at hq
  rcases hq with rfl | rfl | rfl | rfl | rfl | rfl | rfl | rfl | rfl | rfl | rfl <;> first | exact prime_1853641 | exact prime_4562087 | exact prime_173171039 | exact prime_2480874801745591 | norm_num

theorem prime_P : Nat.Prime P := by
  refine prime_of_lucasCheck _ 3
    [2, 3, 3, 13, 29, 67, 229, 311, 983, 11003, 405928799, 11465965001, 13427688667394608761327070753331941386769] ?_ (by decide!)
  intro q hq
  simp only [List.mem_cons, List.mem_singleton, List.not_mem_nil, or_false] at hq
  rcases hq with rfl | rfl | rfl | rfl | rfl | rfl | rfl | rfl | rfl | rfl | rfl | rfl | rfl <;> first | exact prime_405928799 | exact prime_11465965001 | exact prime_13427688667394608761327070753331941386769 | norm_num

/-! ## The moduli -/

/-- C1: the base-field modulus `P` equals `36u⁴ + 36u³ + 24u² + 6u + 1` for the
declared BN parameter `u`, as an exact equality of integers. -/
theorem P_eq_bn_polynomial : P = 36 * u ^ 4 + 36 * u ^ 3 + 24 * u ^ 2 + 6 * u + 1 := by
  decide!

/-- C2: the group order `Order` equals `36u⁴ + 36u³ + 18u² + 6u + 1` for the
declared BN parameter `u`, as an exact equality of integers. -/
theorem Order_eq_bn_polynomial :
    Order = 36 * u ^ 4 + 36 * u ^ 3 + 18 * u ^ 2 + 6 * u + 1 := by
  decide!

/-- C3: the declared modulus `P` is a prime number, so arithmetic modulo `P` forms a
field: every integer not divisible by `P` has a multiplicative inverse modulo `P`. -/
theorem P_is_prime :
    P = 21888242871839275222246405745257275088696311157297823662689037894645226208583 ∧
    Nat.Prime P ∧
    ∀ a : Int, ¬ (P : Int) ∣ a → ∃ b : Int, a * b % (P : Int) = 1 := by
  refine ⟨rfl, prime_P, ?_⟩
  intro a ha
  have hcop : IsCoprime a (P : Int) := by
    have hp : Prime (P : Int) := Nat.prime_iff_prime_int.mp prime_P
    exact ((Prime.coprime_iff_not_dvd hp).2 ha).symm
  obtain ⟨b, c, hbc⟩ := hcop
  refine ⟨b, ?_⟩
  have h1 : a * b = 1 + (P : Int) * (-c) := by linear_combination hbc
  rw [h1, Int.add_mul_emod_self_left]
  decide!

/-! ## The Frobenius constants -/

/-- C4: `xiToPMinus1Over6` is `ξ^((P-1)/6)` for `ξ = i + 9`: reading `gfP2{x, y}` as
`x·i + y` in `Fp2 = Fp[i]/(i² + 1)`, the declared constant equals `i + 9` raised to
the integer exponent `(P-1)/6` (the division is exact), computed in `Fp2` with the
declared `P`. -/
theorem xiToPMinus1Over6_eq :
    xi = ⟨1, 9⟩ ∧ 6 ∣ P - 1 ∧ xi.pow ((P - 1) / 6) = xiToPMinus1Over6 := by
  refine ⟨rfl, by decide!, ?_⟩
  rw [← gfP2.exp_eq]
  decide!

/-- C5: `xiToPMinus1Over3` is `ξ^((P-1)/3)` for `ξ = i + 9`: reading `gfP2{x, y}` as
`x·i + y` in `Fp2 = Fp[i]/(i² + 1)`, the declared constant equals `(i + 9)^((P-1)/3)`
(the division is exact), computed in `Fp2` with the declared `P`. -/
theorem xiToPMinus1Over3_eq :
    xi = ⟨1, 9⟩ ∧ 3 ∣ P - 1 ∧ xi.pow ((P - 1) / 3) = xiToPMinus1Over3 := by
  refine ⟨rfl, by decide!, ?_⟩
  rw [← gfP2.exp_eq]
  decide!

/-- C6: `xiToPMinus1Over2` is `ξ^((P-1)/2)` for `ξ = i + 9`: reading `gfP2{x, y}` as
`x·i + y` in `Fp2 = Fp[i]/(i² + 1)`, the declared constant equals `(i + 9)^((P-1)/2)`
(the division is exact), computed in `Fp2` with the declared `P`. -/
theorem xiToPMinus1Over2_eq :
    xi = ⟨1, 9⟩ ∧ 2 ∣ P - 1 ∧ xi.pow ((P - 1) / 2) = xiToPMinus1Over2 := by
  refine ⟨rfl, by decide!, ?_⟩
  rw [← gfP2.exp_eq]
  decide!

/-- C7: `xiTo2PMinus2Over3` is `ξ^((2P-2)/3)` for `ξ = i + 9`: reading `gfP2{x, y}` as
`x·i + y` in `Fp2 = Fp[i]/(i² + 1)`, the declared constant equals `(i + 9)^((2P-2)/3)`
(the division is exact), computed in `Fp2` with the declared `P`. -/
theorem xiTo2PMinus2Over3_eq :
    xi = ⟨1, 9⟩ ∧ 3 ∣ 2 * P - 2 ∧ xi.pow ((2 * P - 2) / 3) = xiTo2PMinus2Over3 := by
  refine ⟨rfl, by decide!, ?_⟩
  rw [← gfP2.exp_eq]
  decide!

/-- C8: `xiToPSquaredMinus1Over3` is `ξ^((P²-1)/3)` for `ξ = i + 9`: the power
`(i + 9)^((P²-1)/3)` computed in `Fp2` has `i`-coefficient `0` and constant coefficient
equal to the declared integer, which is an element of the base field (it lies in
`[0, P)`). -/
theorem xiToPSquaredMinus1Over3_eq :
    xi = ⟨1, 9⟩ ∧ 3 ∣ P ^ 2 - 1 ∧
    xi.pow ((P ^ 2 - 1) / 3) = ⟨0, xiToPSquaredMinus1Over3⟩ ∧
    0 ≤ xiToPSquaredMinus1Over3 ∧ xiToPSquaredMinus1Over3 < (P : Int) := by
  refine ⟨rfl, by decide!, ?_, by decide!, by decide!⟩
  rw [← gfP2.exp_eq]
  decide!

/-- C9: `xiTo2PSquaredMinus2Over3` is `ξ^((2P²-2)/3)` for `ξ = i + 9`, a cubic root of
unity modulo `P`: the power `(i + 9)^((2P²-2)/3)` in `Fp2` has `i`-coefficient `0` and
constant coefficient equal to the declared integer, and that integer cubed is congruent
to `1` modulo `P`. -/
theorem xiTo2PSquaredMinus2Over3_eq :
    xi = ⟨1, 9⟩ ∧ 3 ∣ 2 * P ^ 2 - 2 ∧
    xi.pow ((2 * P ^ 2 - 2) / 3) = ⟨0, xiTo2PSquaredMinus2Over3⟩ ∧
    xiTo2PSquaredMinus2Over3 ^ 3 ≡ 1 [ZMOD (P : Int)] := by
  refine ⟨rfl, by decide!, ?_, by decide!⟩
  rw [← gfP2.exp_eq]
  decide!

/-- C10: `xiToPSquaredMinus1Over6` is `ξ^((P²-1)/6)` for `ξ = i + 9`, a cubic root of
`-1` modulo `P`: the power `(i + 9)^((P²-1)/6)` in `Fp2` has `i`-coefficient `0` and
constant coefficient equal to the declared integer, and that integer cubed is congruent
to `-1` modulo `P`. -/
theorem xiToPSquaredMinus1Over6_eq :
    xi = ⟨1, 9⟩ ∧ 6 ∣ P ^ 2 - 1 ∧
    xi.pow ((P ^ 2 - 1) / 6) = ⟨0, xiToPSquaredMinus1Over6⟩ ∧
    xiToPSquaredMinus1Over6 ^ 3 ≡ -1 [ZMOD (P : Int)] := by
  refine ⟨rfl, by decide!, ?_, by decide!⟩
  rw [← gfP2.exp_eq]
  decide!

/-! ## Reading of the pair and the BN parameter -/

/-- C11 (as stated, refuted): reading the pair `gfP2{x0, y0}` of `xiToPMinus1Over6` as
`x0 + y0·i`, the way the data model of the specification reads an `Fp2` pair, does not
give `(9 + i)^((P-1)/6)`. -/
theorem xiToPMinus1Over6_spec_reading_ne :
    gfP2.ofCoeffs xiToPMinus1Over6.x xiToPMinus1Over6.y ≠
      (gfP2.ofCoeffs 9 1).pow ((P - 1) / 6) := by
  rw [← gfP2.exp_eq]
  decide!

/-- C11 (amended): the constant `xiToPMinus1Over6 = gfP2{x0, y0}` is `ξ^((P-1)/6)` for
`ξ = i + 9` when the pair is read as `x0·i + y0`, the first literal being the
coefficient of `i`: `y0 + x0·i = (9 + i)^((P-1)/6)` in `Fp[i]/(i² + 1)`. -/
theorem xiToPMinus1Over6_upstream_reading :
    gfP2.ofCoeffs xiToPMinus1Over6.y xiToPMinus1Over6.x =
      (gfP2.ofCoeffs 9 1).pow ((P - 1) / 6) := by
  rw [← gfP2.exp_eq]
  decide!

theorem bnPrimeOf_strictMono : StrictMono bnPrimeOf := by
  intro a b hab
  have h4 : a ^ 4 < b ^ 4 := Nat.pow_lt_pow_left hab (by norm_num)
  have h3 : a ^ 3 < b ^ 3 := Nat.pow_lt_pow_left hab (by norm_num)
  have h2 : a ^ 2 < b ^ 2 := Nat.pow_lt_pow_left hab (by norm_num)
  simp only [bnPrimeOf]
  omega

/-- C12 (as stated, refuted): the declared BN parameter `u` is not `1868033³`. -/
theorem u_ne_cube_1868033 : u ≠ 1868033 ^ 3 := by
  decide!

/-- C12 (amended): the BN parameter `u` declared in `constants.go` is the integer
`4965661367192848881`, the parameter that determines the prime: it is the only natural
number `v` with `36v⁴ + 36v³ + 24v² + 6v + 1 = P`. It is not `1868033³`, which is
`6518589491078791937`. -/
theorem u_determines_P :
    u = 4965661367192848881 ∧ (∀ v : Nat, bnPrimeOf v = P ↔ v = u) ∧
    (1868033 : Nat) ^ 3 = 6518589491078791937 ∧ u ≠ 6518589491078791937 := by
  have hu : bnPrimeOf u = P := by decide!
  refine ⟨rfl, ?_, by norm_num, by decide!⟩
  intro v
  constructor
  · intro hv
    exact bnPrimeOf_strictMono.injective (hv.trans hu.symm)
  · rintro rfl
    exact hu

/-! ## The non-residue `ξ` -/

theorem gfP2.norm_mul (a b : gfP2) :
    ((a.mul b).norm : ZMod P) = (a.norm : ZMod P) * (b.norm : ZMod P) := by
  simp only [gfP2.norm, gfP2.mul]
  push_cast [ZMod.intCast_mod]
  ring

theorem xi_norm : xi.norm = 82 := by
  decide!

/-- If `82` is a `k`-th power in `Fp` for a divisor `k` of `P - 1`, then
`82 ^ ((P - 1) / k)` is `1` modulo `P`. -/
theorem powMod_82_of_pow_eq (n : ZMod P) (k : Nat) (hk : k ∣ P - 1) (h : n ^ k = 82) :
    powMod 82 ((P - 1) / k) P = 1 := by
  haveI : Fact (Nat.Prime P) := ⟨prime_P⟩
  have h82 : (82 : ZMod P) ≠ 0 := by
    intro h0
    have h1 : ((82 : Nat) : ZMod P) = 0 := by exact_mod_cast h0
    rw [ZMod.natCast_zmod_eq_zero_iff_dvd] at h1
    revert h1
    decide!
  have hn : n ≠ 0 := by
    rintro rfl
    rcases Nat.eq_zero_or_pos k with rfl | hkpos
    · rw [Nat.zero_dvd] at hk
      revert hk
      decide!
    · rw [zero_pow hkpos.ne'] at h
      exact h82 h.symm
  have hfermat : (82 : ZMod P) ^ ((P - 1) / k) = 1 := by
    rw [← h, ← pow_mul, Nat.mul_div_cancel' hk]
    exact ZMod.pow_card_sub_one_eq_one hn
  have hcast : ((82 ^ ((P - 1) / k) : Nat) : ZMod P) = ((1 : Nat) : ZMod P) := by
    push_cast
    exact hfermat
  rw [ZMod.natCast_eq_natCast_iff'] at hcast
  rw [powMod_eq, hcast]
  decide!

theorem xi_not_square (s : gfP2) : s.mul s ≠ xi := by
  intro hs
  have hnorm : ((s.norm : ZMod P)) ^ 2 = 82 := by
    have h := gfP2.norm_mul s s
    rw [hs, xi_norm] at h
    rw [pow_two, ← h]
    norm_num
  have h1 := powMod_82_of_pow_eq _ 2 (by decide!) hnorm
  revert h1
  decide!

theorem xi_not_cube (s : gfP2) : (s.mul s).mul s ≠ xi := by
  intro hs
  have hnorm : ((s.norm : ZMod P)) ^ 3 = 82 := by
    have h := gfP2.norm_mul (s.mul s) s
    rw [hs, xi_norm, gfP2.norm_mul] at h
    rw [pow_succ, pow_two, ← h]
    norm_num
  have h1 := powMod_82_of_pow_eq _ 3 (by decide!) hnorm
  revert h1
  decide!

/-- C13: `ξ = i + 9` is a non-residue in `Fp2 = Fp[i]/(i² + 1)` for the declared `P`:
no element `s` of `Fp2` has `s² = ξ` and none has `s³ = ξ`; correspondingly
`ξ^((P²-1)/2) ≠ 1` and `ξ^((P²-1)/3) ≠ 1` (both divisions are exact). -/
theorem xi_nonresidue :
    xi = ⟨1, 9⟩ ∧ (∀ s : gfP2, s.mul s ≠ xi) ∧ (∀ s : gfP2, (s.mul s).mul s ≠ xi) ∧
    2 ∣ P ^ 2 - 1 ∧ xi.pow ((P ^ 2 - 1) / 2) ≠ gfP2.one ∧
    3 ∣ P ^ 2 - 1 ∧ xi.pow ((P ^ 2 - 1) / 3) ≠ gfP2.one := by
  refine ⟨rfl, xi_not_square, xi_not_cube, by decide!, ?_, by decide!, ?_⟩
  · rw [← gfP2.exp_eq]
    decide!
  · rw [← gfP2.exp_eq]
    decide!

end bn256

namespace p256

/-! ## The delegating methods -/

/-- C16: for every `MyBitCurve` value and all arguments, each of `Add`, `Double`,
`ScalarMult` and `ScalarBaseMult` fails (panics) if and only if `underlyingCurve` is
nil; when it is not nil the operation returns exactly the result of the underlying
curve's operation of the same name on the same arguments. -/
theorem adapter_delegates (BitCurve : MyBitCurve) (x1 y1 x2 y2 : Int) (k : List (Fin 256)) :
    ((∃ f, BitCurve.Add x1 y1 x2 y2 = .error f) ↔ BitCurve.underlyingCurve = none) ∧
    ((∃ f, BitCurve.Double x1 y1 = .error f) ↔ BitCurve.underlyingCurve = none) ∧
    ((∃ f, BitCurve.ScalarMult x1 y1 k = .error f) ↔ BitCurve.underlyingCurve = none) ∧
    ((∃ f, BitCurve.ScalarBaseMult k = .error f) ↔ BitCurve.underlyingCurve = none) ∧
    ∀ curve : KoblitzCurve, BitCurve.underlyingCurve = some curve →
      BitCurve.Add x1 y1 x2 y2 = .ok (curve.Add x1 y1 x2 y2) ∧
      BitCurve.Double x1 y1 = .ok (curve.Double x1 y1) ∧
      BitCurve.ScalarMult x1 y1 k = .ok (curve.ScalarMult x1 y1 k) ∧
      BitCurve.ScalarBaseMult k = .ok (curve.ScalarBaseMult k) := by
  cases hu : BitCurve.underlyingCurve with
  | none =>
    simp [MyBitCurve.Add, MyBitCurve.Double, MyBitCurve.ScalarMult,
      MyBitCurve.ScalarBaseMult, hu]
  | some curve =>
    simp [MyBitCurve.Add, MyBitCurve.Double, MyBitCurve.ScalarMult,
      MyBitCurve.ScalarBaseMult, hu]

/-! ## Jacobian coordinates -/

theorem intCast_signFix (p : Nat) (a : Int) :
    (((if a < 0 then a + (p : Int) else a : Int)) : ZMod p) = (a : ZMod p) := by
  split_ifs <;> simp

theorem modInverse_of_not_dvd (p : Nat) (hp : p.Prime) (z : Int) (hz : ¬ (p : Int) ∣ z) :
    ∃ zinv : Int, modInverse z p = some zinv ∧ (z : ZMod p) * (zinv : ZMod p) = 1 := by
  have hg : Int.gcd z p = 1 := by
    have hcop : Nat.Coprime p z.natAbs :=
      (Nat.Prime.coprime_iff_not_dvd hp).2 (fun h => hz (Int.natCast_dvd.2 h))
    rw [Int.gcd_comm]
    simpa [Int.gcd] using hcop
  refine ⟨Int.gcdA z p % p, by simp [modInverse, hg], ?_⟩
  have hb := Int.gcd_eq_gcd_ab z p
  rw [hg] at hb
  have hc := congrArg (Int.cast : Int → ZMod p) hb
  push_cast at hc
  rw [ZMod.intCast_mod]
  simpa using hc.symm

theorem affineFromJacobian_zero (BitCurve : MyBitCurve) (x y : Int) :
    BitCurve.affineFromJacobian x y 0 = .ok (0, 0) := by
  simp [MyBitCurve.affineFromJacobian]

theorem affineFromJacobian_eq (BitCurve : MyBitCurve) (params : CurveParams) (p : Nat)
    (hcurve : BitCurve.CurveParams = some params) (hP : params.P = p) (hp : p.Prime)
    (x y z : Int) (hz : ¬ (p : Int) ∣ z) :
    ∃ zinv : Int, (z : ZMod p) * (zinv : ZMod p) = 1 ∧
      BitCurve.affineFromJacobian x y z =
        .ok ((x * (zinv * zinv)) % (p : Int), (y * (zinv * zinv * zinv)) % (p : Int)) := by
  obtain ⟨zinv, hinv, hmul⟩ := modInverse_of_not_dvd p hp z hz
  have hz0 : z ≠ 0 := by
    rintro rfl
    exact hz (dvd_zero _)
  have hp0 : (p : Int) ≠ 0 := by exact_mod_cast hp.ne_zero
  refine ⟨zinv, hmul, ?_⟩
  simp only [MyBitCurve.affineFromJacobian, if_neg hz0, hcurve, hP, hinv, if_neg hp0]

theorem addJacobian_eq (BitCurve : MyBitCurve) (params : CurveParams) (p : Nat)
    (hcurve : BitCurve.CurveParams = some params) (hP : params.P = p) (hp0 : p ≠ 0)
    (x1 y1 z1 x2 y2 z2 : Int) :
    ∃ a b c : Int,
      BitCurve.addJacobian x1 y1 z1 x2 y2 z2 =
        .ok (a % (p : Int), b % (p : Int), c % (p : Int)) ∧
      (a : ZMod p) =
        (2 * (y2 * z1 ^ 3 - y1 * z2 ^ 3)) ^ 2 - 4 * (x2 * z1 ^ 2 - x1 * z2 ^ 2) ^ 3
          - 8 * (x1 * z2 ^ 2) * (x2 * z1 ^ 2 - x1 * z2 ^ 2) ^ 2 ∧
      (b : ZMod p) =
        2 * (y2 * z1 ^ 3 - y1 * z2 ^ 3) *
            (4 * (x1 * z2 ^ 2) * (x2 * z1 ^ 2 - x1 * z2 ^ 2) ^ 2 - (a : ZMod p))
          - 8 * (y1 * z2 ^ 3) * (x2 * z1 ^ 2 - x1 * z2 ^ 2) ^ 3 ∧
      (c : ZMod p) = 2 * z1 * z2 * (x2 * z1 ^ 2 - x1 * z2 ^ 2) := by
  have hp0i : (p : Int) ≠ 0 := by exact_mod_cast hp0
  simp only [MyBitCurve.addJacobian, hcurve, hP, if_neg hp0i]
  refine ⟨_, _, _, rfl, ?_, ?_, ?_⟩
  · simp only [lsh, Int.cast_sub, Int.cast_mul, Int.cast_pow, intCast_signFix,
      ZMod.intCast_mod, Int.cast_ofNat]
    ring
  · simp only [lsh, Int.cast_sub, Int.cast_mul, Int.cast_pow, intCast_signFix,
      ZMod.intCast_mod, Int.cast_ofNat]
    ring
  · simp only [lsh, Int.cast_sub, Int.cast_mul, Int.cast_add, Int.cast_pow, intCast_signFix,
      ZMod.intCast_mod, Int.cast_ofNat]
    ring

theorem not_dvd_of_pos_of_lt (p : Nat) (z : Int) (h0 : 0 ≤ z) (hne : z ≠ 0) (hlt : z < p) :
    ¬ (p : Int) ∣ z := by
  intro hd
  exact hne (Int.eq_zero_of_dvd_of_nonneg_of_lt h0 hlt hd)

/-- C18: `affineFromJacobian` converts a Jacobian point to affine form: for a prime
modulus `P` and all integers `x`, `y`, `z`, if `z = 0` it returns `(0, 0)`; if `z` is
not divisible by `P` it returns `(xOut, yOut)` with `0 ≤ xOut < P`, `0 ≤ yOut < P`,
`xOut·z² ≡ x (mod P)` and `yOut·z³ ≡ y (mod P)`. -/
theorem affineFromJacobian_spec (BitCurve : MyBitCurve) (params : CurveParams) (p : Nat)
    (hcurve : BitCurve.CurveParams = some params) (hP : params.P = p) (hp : p.Prime)
    (x y z : Int) :
    (z = 0 → BitCurve.affineFromJacobian x y z = .ok (0, 0)) ∧
    (¬ (p : Int) ∣ z → ∃ xOut yOut : Int,
      BitCurve.affineFromJacobian x y z = .ok (xOut, yOut) ∧
      0 ≤ xOut ∧ xOut < p ∧ 0 ≤ yOut ∧ yOut < p ∧
      xOut * z ^ 2 ≡ x [ZMOD (p : Int)] ∧ yOut * z ^ 3 ≡ y [ZMOD (p : Int)]) := by
  have hp0 : (p : Int) ≠ 0 := by exact_mod_cast hp.ne_zero
  have hpos : (0 : Int) < p := by exact_mod_cast hp.pos
  constructor
  · rintro rfl
    exact affineFromJacobian_zero BitCurve x y
  · intro hz
    obtain ⟨zinv, hmul, heq⟩ := affineFromJacobian_eq BitCurve params p hcurve hP hp x y z hz
    refine ⟨_, _, heq, Int.emod_nonneg _ hp0, Int.emod_lt_of_pos _ hpos,
      Int.emod_nonneg _ hp0, Int.emod_lt_of_pos _ hpos, ?_, ?_⟩
    · rw [← ZMod.intCast_eq_intCast_iff]
      push_cast [ZMod.intCast_mod]
      linear_combination (x : ZMod p) * ((z : ZMod p) * zinv + 1) * hmul
    · rw [← ZMod.intCast_eq_intCast_iff]
      push_cast [ZMod.intCast_mod]
      linear_combination
        (y : ZMod p) * (((z : ZMod p) * zinv) ^ 2 + (z : ZMod p) * zinv + 1) * hmul

/-- Witness of C18: the modulus `23` and the Jacobian triple `(3, 4, 5)`. -/
theorem affineFromJacobian_spec_witness :
    smallCurve.CurveParams = some smallParams ∧ smallParams.P = (23 : Nat) ∧ Nat.Prime 23 ∧
    ¬ ((23 : Nat) : Int) ∣ 5 ∧
    ∃ xOut yOut : Int, smallCurve.affineFromJacobian 3 4 5 = .ok (xOut, yOut) ∧
      0 ≤ xOut ∧ xOut < (23 : Nat) ∧ 0 ≤ yOut ∧ yOut < (23 : Nat) ∧
      xOut * 5 ^ 2 ≡ 3 [ZMOD ((23 : Nat) : Int)] ∧
      yOut * 5 ^ 3 ≡ 4 [ZMOD ((23 : Nat) : Int)] :=
  ⟨rfl, rfl, by norm_num, by decide,
    (affineFromJacobian_spec smallCurve smallParams 23 rfl rfl (by norm_num) 3 4 5).2
      (by decide)⟩

/-- C20: for a prime modulus `P` and all integer inputs, the three outputs of
`addJacobian` are reduced, each lying in `[0, P)`; consequently `z3` is either `0` or
invertible modulo `P`, and `affineFromJacobian` applied to the output of `addJacobian`
returns a pair: it never reaches its failing case. -/
theorem addJacobian_output_reduced (BitCurve : MyBitCurve) (params : CurveParams) (p : Nat)
    (hcurve : BitCurve.CurveParams = some params) (hP : params.P = p) (hp : p.Prime)
    (x1 y1 z1 x2 y2 z2 : Int) :
    ∃ x3 y3 z3 : Int, BitCurve.addJacobian x1 y1 z1 x2 y2 z2 = .ok (x3, y3, z3) ∧
      (0 ≤ x3 ∧ x3 < p) ∧ (0 ≤ y3 ∧ y3 < p) ∧ (0 ≤ z3 ∧ z3 < p) ∧
      (z3 = 0 ∨ ∃ w : Int, modInverse z3 p = some w ∧ z3 * w ≡ 1 [ZMOD (p : Int)]) ∧
      ∃ xOut yOut : Int, BitCurve.affineFromJacobian x3 y3 z3 = .ok (xOut, yOut) := by
  have hp0 : (p : Int) ≠ 0 := by exact_mod_cast hp.ne_zero
  have hpos : (0 : Int) < p := by exact_mod_cast hp.pos
  obtain ⟨a, b, c, heq, -, -, -⟩ :=
    addJacobian_eq BitCurve params p hcurve hP hp.ne_zero x1 y1 z1 x2 y2 z2
  have hz3 : 0 ≤ c % (p : Int) ∧ c % (p : Int) < p :=
    ⟨Int.emod_nonneg _ hp0, Int.emod_lt_of_pos _ hpos⟩
  refine ⟨_, _, _, heq, ⟨Int.emod_nonneg _ hp0, Int.emod_lt_of_pos _ hpos⟩,
    ⟨Int.emod_nonneg _ hp0, Int.emod_lt_of_pos _ hpos⟩, hz3, ?_, ?_⟩
  · by_cases h0 : c % (p : Int) = 0
    · exact Or.inl h0
    · right
      obtain ⟨w, hw1, hw⟩ := modInverse_of_not_dvd p hp _
        (not_dvd_of_pos_of_lt p _ hz3.1 h0 hz3.2)
      refine ⟨w, hw1, ?_⟩
      rw [← ZMod.intCast_eq_intCast_iff]
      push_cast at hw ⊢
      exact hw
  · by_cases h0 : c % (p : Int) = 0
    · rw [h0]
      exact ⟨0, 0, affineFromJacobian_zero BitCurve _ _⟩
    · obtain ⟨zinv, -, h⟩ := affineFromJacobian_eq BitCurve params p hcurve hP hp
        (a % (p : Int)) (b % (p : Int)) (c % (p : Int))
        (not_dvd_of_pos_of_lt p _ hz3.1 h0 hz3.2)
      exact ⟨_, _, h⟩

/-- Witness of C20: the modulus `23` and two Jacobian triples. -/
theorem addJacobian_output_reduced_witness :
    smallCurve.CurveParams = some smallParams ∧ smallParams.P = (23 : Nat) ∧ Nat.Prime 23 ∧
    ∃ x3 y3 z3 : Int, smallCurve.addJacobian 4 80 2 36 135 3 = .ok (x3, y3, z3) ∧
      (0 ≤ x3 ∧ x3 < (23 : Nat)) ∧ (0 ≤ y3 ∧ y3 < (23 : Nat)) ∧
      (0 ≤ z3 ∧ z3 < (23 : Nat)) ∧
      (z3 = 0 ∨ ∃ w : Int, modInverse z3 (23 : Nat) = some w ∧
        z3 * w ≡ 1 [ZMOD ((23 : Nat) : Int)]) ∧
      ∃ xOut yOut : Int, smallCurve.affineFromJacobian x3 y3 z3 = .ok (xOut, yOut) :=
  ⟨rfl, rfl, by norm_num,
    addJacobian_output_reduced smallCurve smallParams 23 rfl rfl (by norm_num) 4 80 2 36 135 3⟩

/-! ## Point addition in Jacobian coordinates -/

theorem chord_field_x {F : Type} [Field F] (x1 y1 z1 x2 y2 z2 : F) (h2 : (2 : F) ≠ 0)
    (hz1 : z1 ≠ 0) (hz2 : z2 ≠ 0) (hH : x2 * z1 ^ 2 - x1 * z2 ^ 2 ≠ 0) :
    ((2 * (y2 * z1 ^ 3 - y1 * z2 ^ 3)) ^ 2 - 4 * (x2 * z1 ^ 2 - x1 * z2 ^ 2) ^ 3
        - 8 * (x1 * z2 ^ 2) * (x2 * z1 ^ 2 - x1 * z2 ^ 2) ^ 2) *
      ((2 * z1 * z2 * (x2 * z1 ^ 2 - x1 * z2 ^ 2))⁻¹ *
        (2 * z1 * z2 * (x2 * z1 ^ 2 - x1 * z2 ^ 2))⁻¹) =
    ((y2 * (z2 ^ 3)⁻¹ - y1 * (z1 ^ 3)⁻¹) * (x2 * (z2 ^ 2)⁻¹ - x1 * (z1 ^ 2)⁻¹)⁻¹) ^ 2
      - x1 * (z1 ^ 2)⁻¹ - x2 * (z2 ^ 2)⁻¹ := by
  have hz1sq : z1 ^ 2 ≠ 0 := pow_ne_zero _ hz1
  have hz2sq : z2 ^ 2 ≠ 0 := pow_ne_zero _ hz2
  have hz1cu : z1 ^ 3 ≠ 0 := pow_ne_zero _ hz1
  have hz2cu : z2 ^ 3 ≠ 0 := pow_ne_zero _ hz2
  have hden : x2 * (z2 ^ 2)⁻¹ - x1 * (z1 ^ 2)⁻¹ =
      (x2 * z1 ^ 2 - x1 * z2 ^ 2) * (z1 ^ 2 * z2 ^ 2)⁻¹ := by
    field_simp
    ring
  rw [hden]
  generalize hHdef : x2 * z1 ^ 2 - x1 * z2 ^ 2 = H at hH ⊢
  have hx2 : x2 = (H + x1 * z2 ^ 2) * (z1 ^ 2)⁻¹ := by
    field_simp
    linear_combination hHdef
  have hD : z1 * z2 * H ≠ 0 := mul_ne_zero (mul_ne_zero hz1 hz2) hH
  have h2D : 2 * z1 * z2 * H ≠ 0 := mul_ne_zero (mul_ne_zero (mul_ne_zero h2 hz1) hz2) hH
  have hl : (y2 * (z2 ^ 3)⁻¹ - y1 * (z1 ^ 3)⁻¹) * (H * (z1 ^ 2 * z2 ^ 2)⁻¹)⁻¹ =
      (y2 * z1 ^ 3 - y1 * z2 ^ 3) * (z1 * z2 * H)⁻¹ := by
    field_simp
    ring
  rw [hl, hx2]
  have hDsq : (z1 * z2 * H) ^ 2 ≠ 0 := pow_ne_zero _ hD
  field_simp
  ring

theorem chord_field_y {F : Type} [Field F] (x1 y1 z1 x2 y2 z2 : F) (h2 : (2 : F) ≠ 0)
    (hz1 : z1 ≠ 0) (hz2 : z2 ≠ 0) (hH : x2 * z1 ^ 2 - x1 * z2 ^ 2 ≠ 0) :
    (2 * (y2 * z1 ^ 3 - y1 * z2 ^ 3) *
          (4 * (x1 * z2 ^ 2) * (x2 * z1 ^ 2 - x1 * z2 ^ 2) ^ 2 -
            ((2 * (y2 * z1 ^ 3 - y1 * z2 ^ 3)) ^ 2 - 4 * (x2 * z1 ^ 2 - x1 * z2 ^ 2) ^ 3
              - 8 * (x1 * z2 ^ 2) * (x2 * z1 ^ 2 - x1 * z2 ^ 2) ^ 2))
        - 8 * (y1 * z2 ^ 3) * (x2 * z1 ^ 2 - x1 * z2 ^ 2) ^ 3) *
      ((2 * z1 * z2 * (x2 * z1 ^ 2 - x1 * z2 ^ 2))⁻¹ *
        (2 * z1 * z2 * (x2 * z1 ^ 2 - x1 * z2 ^ 2))⁻¹ *
        (2 * z1 * z2 * (x2 * z1 ^ 2 - x1 * z2 ^ 2))⁻¹) =
    (y2 * (z2 ^ 3)⁻¹ - y1 * (z1 ^ 3)⁻¹) * (x2 * (z2 ^ 2)⁻¹ - x1 * (z1 ^ 2)⁻¹)⁻¹ *
        (x1 * (z1 ^ 2)⁻¹ -
          (((y2 * (z2 ^ 3)⁻¹ - y1 * (z1 ^ 3)⁻¹) * (x2 * (z2 ^ 2)⁻¹ - x1 * (z1 ^ 2)⁻¹)⁻¹) ^ 2
            - x1 * (z1 ^ 2)⁻¹ - x2 * (z2 ^ 2)⁻¹))
      - y1 * (z1 ^ 3)⁻¹ := by
  rw [← chord_field_x x1 y1 z1 x2 y2 z2 h2 hz1 hz2 hH]
  have hz1sq : z1 ^ 2 ≠ 0 := pow_ne_zero _ hz1
  have hz2sq : z2 ^ 2 ≠ 0 := pow_ne_zero _ hz2
  have hz1cu : z1 ^ 3 ≠ 0 := pow_ne_zero _ hz1
  have hz2cu : z2 ^ 3 ≠ 0 := pow_ne_zero _ hz2
  have hden : x2 * (z2 ^ 2)⁻¹ - x1 * (z1 ^ 2)⁻¹ =
      (x2 * z1 ^ 2 - x1 * z2 ^ 2) * (z1 ^ 2 * z2 ^ 2)⁻¹ := by
    field_simp
    ring
  rw [hden]
  generalize x2 * z1 ^ 2 - x1 * z2 ^ 2 = H at hH ⊢
  have hD : z1 * z2 * H ≠ 0 := mul_ne_zero (mul_ne_zero hz1 hz2) hH
  have h2D : 2 * z1 * z2 * H ≠ 0 := mul_ne_zero (mul_ne_zero (mul_ne_zero h2 hz1) hz2) hH
  have hl : (y2 * (z2 ^ 3)⁻¹ - y1 * (z1 ^ 3)⁻¹) * (H * (z1 ^ 2 * z2 ^ 2)⁻¹)⁻¹ =
      (y2 * z1 ^ 3 - y1 * z2 ^ 3) * (2 * (2 * z1 * z2 * H)⁻¹) := by
    field_simp
    ring
  have he : (z1 ^ 2)⁻¹ = (2 * z2 * H * (2 * z1 * z2 * H)⁻¹) ^ 2 := by
    field_simp
    ring
  have hf : (z1 ^ 3)⁻¹ = (2 * z2 * H * (2 * z1 * z2 * H)⁻¹) ^ 3 := by
    field_simp
    ring
  rw [hl, he, hf]
  generalize (2 * z1 * z2 * H)⁻¹ = w
  ring

theorem intCast_emod_val (p : Nat) [NeZero p] (v : Int) (t : ZMod p) (h : (v : ZMod p) = t) :
    v % (p : Int) = (t.val : Int) := by
  rw [← h, ZMod.val_intCast]

/-- C17: `addJacobian` returns the sum of its two operands in general position: for an
odd prime modulus `P`, `z1` and `z2` not divisible by `P` and `x1·z2²` not congruent
to `x2·z1²` modulo `P`, `affineFromJacobian` applied to the output of `addJacobian`
returns the reduced representatives of the chord-rule sum of the affine points
`(x1/z1², y1/z1³)` and `(x2/z2², y2/z2³)` of `Fp`. -/
theorem addJacobian_chord (BitCurve : MyBitCurve) (params : CurveParams) (p : Nat)
    (hcurve : BitCurve.CurveParams = some params) (hP : params.P = p) (hp : p.Prime)
    (hodd : p ≠ 2) (x1 y1 z1 x2 y2 z2 : Int)
    (hz1 : ¬ (p : Int) ∣ z1) (hz2 : ¬ (p : Int) ∣ z2)
    (hx : ¬ x1 * z2 ^ 2 ≡ x2 * z1 ^ 2 [ZMOD (p : Int)]) :
    ∃ x3 y3 z3 : Int, BitCurve.addJacobian x1 y1 z1 x2 y2 z2 = .ok (x3, y3, z3) ∧
      BitCurve.affineFromJacobian x3 y3 z3 =
        .ok (((chordSum p (toAffine p x1 y1 z1) (toAffine p x2 y2 z2)).1.val : Int),
             ((chordSum p (toAffine p x1 y1 z1) (toAffine p x2 y2 z2)).2.val : Int)) := by
  haveI : Fact p.Prime := ⟨hp⟩
  obtain ⟨a, b, c, heq, ha, hb, hc⟩ :=
    addJacobian_eq BitCurve params p hcurve hP hp.ne_zero x1 y1 z1 x2 y2 z2
  have hZ1 : (z1 : ZMod p) ≠ 0 := fun h => hz1 ((ZMod.intCast_zmod_eq_zero_iff_dvd _ _).1 h)
  have hZ2 : (z2 : ZMod p) ≠ 0 := fun h => hz2 ((ZMod.intCast_zmod_eq_zero_iff_dvd _ _).1 h)
  have hH : (x2 : ZMod p) * z1 ^ 2 - x1 * z2 ^ 2 ≠ 0 := by
    intro h
    apply hx
    rw [← ZMod.intCast_eq_intCast_iff]
    push_cast
    linear_combination -h
  have h2 : (2 : ZMod p) ≠ 0 := by
    intro h
    have h' : ((2 : Nat) : ZMod p) = 0 := by exact_mod_cast h
    rw [ZMod.natCast_zmod_eq_zero_iff_dvd] at h'
    exact hodd ((Nat.prime_dvd_prime_iff_eq hp Nat.prime_two).1 h')
  have hC : (c : ZMod p) ≠ 0 := by
    rw [hc]
    exact mul_ne_zero (mul_ne_zero (mul_ne_zero h2 hZ1) hZ2) hH
  have hcz : ¬ (p : Int) ∣ c % (p : Int) := by
    intro hd
    apply hC
    rw [ZMod.intCast_zmod_eq_zero_iff_dvd]
    exact (Int.dvd_of_emod_eq_zero (Int.emod_emod_of_dvd c (dvd_refl _) ▸
      Int.emod_eq_zero_of_dvd hd))
  obtain ⟨zinv, hmul, haff⟩ := affineFromJacobian_eq BitCurve params p hcurve hP hp
    (a % (p : Int)) (b % (p : Int)) (c % (p : Int)) hcz
  rw [ZMod.intCast_mod] at hmul
  have hzinv : (zinv : ZMod p) = (c : ZMod p)⁻¹ := eq_inv_of_mul_eq_one_right hmul
  refine ⟨_, _, _, heq, ?_⟩
  rw [haff]
  congr 2
  · apply intCast_emod_val
    push_cast [ZMod.intCast_mod]
    rw [hzinv, ha, hc]
    simp only [chordSum, toAffine]
    exact chord_field_x _ _ _ _ _ _ h2 hZ1 hZ2 hH
  · apply intCast_emod_val
    push_cast [ZMod.intCast_mod]
    rw [hzinv, hb, ha, hc]
    simp only [chordSum, toAffine]
    exact chord_field_y _ _ _ _ _ _ h2 hZ1 hZ2 hH

/-- Witness of C17: over the field with `23` elements, the points `(1, 10)` and `(4, 5)`
of `y² = x³ + 7` given as the Jacobian triples `(4, 80, 2)` and `(36, 135, 3)`. -/
theorem addJacobian_chord_witness :
    smallCurve.CurveParams = some smallParams ∧ smallParams.P = (23 : Nat) ∧ Nat.Prime 23 ∧
    (23 : Nat) ≠ 2 ∧ ¬ ((23 : Nat) : Int) ∣ 2 ∧ ¬ ((23 : Nat) : Int) ∣ 3 ∧
    ¬ (4 : Int) * 3 ^ 2 ≡ 36 * 2 ^ 2 [ZMOD ((23 : Nat) : Int)] ∧
    ∃ x3 y3 z3 : Int, smallCurve.addJacobian 4 80 2 36 135 3 = .ok (x3, y3, z3) ∧
      smallCurve.affineFromJacobian x3 y3 z3 =
        .ok (((chordSum 23 (toAffine 23 4 80 2) (toAffine 23 36 135 3)).1.val : Int),
             ((chordSum 23 (toAffine 23 4 80 2) (toAffine 23 36 135 3)).2.val : Int)) :=
  ⟨rfl, rfl, by norm_num, by decide, by decide, by decide, by decide,
    addJacobian_chord smallCurve smallParams 23 rfl rfl (by norm_num) (by decide)
      4 80 2 36 135 3 (by decide) (by decide) (by decide)⟩

theorem addJacobian_same (BitCurve : MyBitCurve) (params : CurveParams)
    (hcurve : BitCurve.CurveParams = some params) (hP : params.P ≠ 0) (x y z : Int) :
    BitCurve.addJacobian x y z x y z = .ok (0, 0, 0) := by
  simp [MyBitCurve.addJacobian, hcurve, hP, lsh]

/-- C19 (the code at the failing input): on the initialised curve `theCurve`, with the
secp256k1 prime as modulus, adding the base point `(Gx, Gy, 1)` to itself gives the
triple `(0, 0, 0)`. Its `z3 = 0` is divisible by `P` and its affine form is `(0, 0)`,
which is not the double of the base point: `(0, 0)` does not satisfy `y² = x³ + 7`
modulo `P`, while the base point does, with `Gy` and `z = 1` not divisible by `P`. -/
theorem addJacobian_same_point_collapses (btcecCurveInstance : KoblitzCurve) :
    (S256 btcecCurveInstance).CurveParams = some secp256k1Params ∧
    secp256k1Params.Gy ^ 2 ≡ secp256k1Params.Gx ^ 3 + 7 [ZMOD secp256k1Params.P] ∧
    ¬ secp256k1Params.P ∣ secp256k1Params.Gy ∧ ¬ secp256k1Params.P ∣ 1 ∧
    (S256 btcecCurveInstance).addJacobian secp256k1Params.Gx secp256k1Params.Gy 1
      secp256k1Params.Gx secp256k1Params.Gy 1 = .ok (0, 0, 0) ∧
    secp256k1Params.P ∣ 0 ∧
    (S256 btcecCurveInstance).affineFromJacobian 0 0 0 = .ok (0, 0) ∧
    ¬ (0 : Int) ^ 2 ≡ 0 ^ 3 + 7 [ZMOD secp256k1Params.P] := by
  refine ⟨rfl, by decide!, by decide!, by decide!, ?_, dvd_zero _, ?_, by decide!⟩
  · exact addJacobian_same _ secp256k1Params rfl (by decide!) _ _ _
  · exact affineFromJacobian_zero _ _ _

end p256
